import Mathlib

/-!
Verification development for the prompt-formatting / output-parsing core of a
custom LLM-agent notebook.  Strings are modelled as `List Char`.  The two
source functions under study are `CustomOutputParser.parse` (which turns raw
model output into either a final result, an action step, or an error) and
`CustomPromptTemplate.format` (which renders the scratchpad, the tool listing
and the template substitution).  The regular expression
`Action\s*\d*\s*:(.*?)\nAction\s*\d*\s*Input\s*\d*\s*:[\s]*(.*)` (compiled
with DOTALL) is embedded as an executable matcher with Python `re.search`
semantics: leftmost start position, the whitespace/digit gaps resolved
deterministically (the character classes are disjoint from the literals that
follow them), the first capture lazy, the second capture greedy to the end of
the input.  Python's `\s`, `\d` and `str.strip` are modelled on their ASCII
fragments, which cover every character the notebook's prompts produce.
-/

/-- ASCII fragment of Python's regex class `\s` and of `str.strip()`:
space, tab, newline, carriage return, vertical tab, form feed. -/
def isWs (c : Char) : Bool :=
  c == ' ' || c == '\t' || c == '\n' || c == '\r' || c == '\x0b' || c == '\x0c'

/-- ASCII fragment of Python's regex class `\d`. -/
def isDigitCh (c : Char) : Bool :=
  '0' ≤ c && c ≤ '9'

/-- The space character, the set stripped by Python's `strip(" ")`. -/
def isSpaceCh (c : Char) : Bool :=
  c == ' '

/-- The double-quote character, the set stripped by Python's `strip('"')`. -/
def isQuoteCh (c : Char) : Bool :=
  c == '\"'

/-- `startsWith p l` holds when `p` is an initial segment of `l`. -/
def startsWith : List Char → List Char → Bool
  | [], _ => true
  | _ :: _, [] => false
  | p :: ps, c :: cs => p == c && startsWith ps cs

/-- Python's substring test `pat in l`. -/
def occursIn (pat : List Char) : List Char → Bool
  | [] => startsWith pat []
  | c :: rest => startsWith pat (c :: rest) || occursIn pat rest

/-- Python's `str.strip(chars)`: remove every leading and every trailing
character satisfying `p`. -/
def pyStrip (p : Char → Bool) (l : List Char) : List Char :=
  ((l.dropWhile p).reverse.dropWhile p).reverse

/-- Python's argumentless `str.strip()` on the ASCII whitespace fragment. -/
def pyStripWs (l : List Char) : List Char :=
  pyStrip isWs l

/-- One round of Python's `str.split(sep)` machinery, with explicit fuel.
The fuel is always instantiated with the length of the scanned list, which
suffices because a non-empty separator consumes at least one character. -/
def consHead (c : Char) : List (List Char) → List (List Char)
  | [] => [[c]]
  | h :: t => (c :: h) :: t

/-- Python's `str.split(sep)` for a non-empty separator: scan left to right,
cut at each non-overlapping occurrence. -/
def pySplitFuel (M : List Char) : Nat → List Char → List (List Char)
  | _, [] => [[]]
  | 0, l => [l]
  | n + 1, c :: rest =>
      if startsWith M (c :: rest) then
        [] :: pySplitFuel M n ((c :: rest).drop M.length)
      else
        consHead c (pySplitFuel M n rest)

/-- Python's `str.split(sep)` for a non-empty separator. -/
def pySplit (M l : List Char) : List (List Char) :=
  pySplitFuel M l.length l

/-- The literal marker `"Final Answer:"` tested by the parser. -/
def finalAnswerMarker : List Char :=
  "Final Answer:".toList

/-- The literal token `Action` of the extraction pattern. -/
def actionTok : List Char :=
  "Action".toList

/-- The literal token `Input` of the extraction pattern. -/
def inputTok : List Char :=
  "Input".toList

/-- The gap `\s*\d*\s*` of the pattern.  Because the literal that follows the
gap is never a whitespace or digit character, greedy matching with
backtracking reaches exactly this position: maximal whitespace run, then
maximal digit run, then maximal whitespace run. -/
def skipWDW (l : List Char) : List Char :=
  ((l.dropWhile isWs).dropWhile isDigitCh).dropWhile isWs

/-- The tail `Action\s*\d*\s*Input\s*\d*\s*:[\s]*(.*)` of the pattern,
returning group 2 (greedy, runs to the end of input under DOTALL). -/
def matchInputPart (r : List Char) : Option (List Char) :=
  if startsWith actionTok r then
    let r1 := skipWDW (r.drop actionTok.length)
    if startsWith inputTok r1 then
      match skipWDW (r1.drop inputTok.length) with
      | ':' :: rest => some (rest.dropWhile isWs)
      | _ => none
    else none
  else none

/-- Prepend a character to the first capture of a match candidate. -/
def consG1 (c : Char) : Option (List Char × List Char) → Option (List Char × List Char)
  | none => none
  | some (g1, g2) => some (c :: g1, g2)

/-- The lazy capture `(.*?)\n` followed by the input part: find the shortest
group 1 (newlines included, DOTALL) such that a newline and a matching
`Action ... Input ... :` segment follow. -/
def scanG1 : List Char → Option (List Char × List Char)
  | [] => none
  | c :: rest =>
      if c = '\n' then
        match matchInputPart rest with
        | some g2 => some ([], g2)
        | none => consG1 c (scanG1 rest)
      else consG1 c (scanG1 rest)

/-- Attempt the whole pattern at one start position. -/
def matchAt (l : List Char) : Option (List Char × List Char) :=
  if startsWith actionTok l then
    match skipWDW (l.drop actionTok.length) with
    | ':' :: rest => scanG1 rest
    | _ => none
  else none

/-- Python's `re.search`: try every start position from the left, return the
captures of the first position where the whole pattern matches. -/
def reSearch : List Char → Option (List Char × List Char)
  | [] => none
  | c :: rest =>
      match matchAt (c :: rest) with
      | some r => some r
      | none => reSearch rest

/-- Result of parsing one model turn when the run is finished
(`AgentFinish` in the source; `return_values` holds the single `output`). -/
structure AgentFinish where
  output : List Char
  log : List Char
  deriving DecidableEq

/-- Result of parsing one model turn when another tool call is requested
(`AgentAction` in the source). -/
structure AgentAction where
  tool : List Char
  tool_input : List Char
  log : List Char
  deriving DecidableEq

/-- The two success shapes of the parser. -/
inductive ParseResult where
  | finish : AgentFinish → ParseResult
  | action : AgentAction → ParseResult
  deriving DecidableEq

/-- The `ValueError` raised by the parser; its message embeds the original
input text, modelled by carrying that text. -/
structure ParseError where
  text : List Char
  deriving DecidableEq

/-- Embedding of `CustomOutputParser.parse`: if the input contains
`"Final Answer:"`, finish with the last split fragment stripped of
whitespace; otherwise search for the action pattern; group 1 stripped of
whitespace becomes the tool name, group 2 stripped of spaces and then of
double quotes becomes the tool input; no match raises the error. -/
def CustomOutputParser.parse (llm_output : List Char) : Except ParseError ParseResult :=
  if occursIn finalAnswerMarker llm_output then
    .ok (.finish
      { output := pyStripWs ((pySplit finalAnswerMarker llm_output).getLastD [])
        log := llm_output })
  else
    match reSearch llm_output with
    | some (g1, g2) =>
        .ok (.action
          { tool := pyStripWs g1
            tool_input := pyStrip isQuoteCh (pyStrip isSpaceCh g2)
            log := llm_output })
    | none => .error { text := llm_output }

/-- A declared tool: name and description (the `Tool` objects of the source,
restricted to the two fields the renderer reads). -/
structure Tool where
  name : List Char
  description : List Char
  deriving DecidableEq

/-- The literal `"\nObservation: "` glue appended after each action log. -/
def obsTok : List Char :=
  "\nObservation: ".toList

/-- The literal `"\nThought: "` glue closing each scratchpad entry. -/
def thoughtTok : List Char :=
  "\nThought: ".toList

/-- The scratchpad construction of `CustomPromptTemplate.format`: start from
the empty string and append, for each (action, observation) pair, the
action's log then `"\nObservation: <obs>\nThought: "`. -/
def renderScratchpad (steps : List (AgentAction × List Char)) : List Char :=
  steps.foldl (fun acc p => acc ++ p.1.log ++ obsTok ++ p.2 ++ thoughtTok) []

/-- Python's `sep.join(parts)`. -/
def pyJoin (sep : List Char) : List (List Char) → List Char
  | [] => []
  | [x] => x
  | x :: y :: rest => x ++ sep ++ pyJoin sep (y :: rest)

/-- The `": "` glue between a tool name and its description. -/
def colonSpaceTok : List Char :=
  ": ".toList

/-- The `", "` glue between tool names. -/
def commaSpaceTok : List Char :=
  ", ".toList

/-- The newline glue between tool listing lines. -/
def newlineTok : List Char :=
  "\n".toList

/-- The tools listing of `CustomPromptTemplate.format`:
`"\n".join(f"{tool.name}: {tool.description}" for tool in tools)`. -/
def renderTools (tools : List Tool) : List Char :=
  pyJoin newlineTok (tools.map (fun tl => tl.name ++ colonSpaceTok ++ tl.description))

/-- The tool-name listing of `CustomPromptTemplate.format`:
`", ".join(tool.name for tool in tools)`. -/
def renderToolNames (tools : List Tool) : List Char :=
  pyJoin commaSpaceTok (tools.map Tool.name)

/-- Rendering-time failure of the template substitution, the `TemplateError`
of the specification: a referenced key is absent (Python's `KeyError`) or the
brace structure is malformed (Python's `ValueError`). -/
inductive FmtError where
  | missingKey : List Char → FmtError
  | malformed : FmtError
  deriving DecidableEq

/-- First-match lookup in the keyword mapping (Python dict access, with the
earlier entries playing the role of the overriding assignments). -/
def lookupKw (name : List Char) : List (List Char × List Char) → Option (List Char)
  | [] => none
  | (k, v) :: rest => if k = name then some v else lookupKw name rest

/-- Remove a key from the mapping (Python's `dict.pop`). -/
def removeKey (name : List Char) : List (List Char × List Char) → List (List Char × List Char)
  | [] => []
  | (k, v) :: rest => if k = name then removeKey name rest else (k, v) :: removeKey name rest

/-- The opening brace character of a placeholder. -/
def openBr : Char :=
  '\x7b'

/-- The closing brace character of a placeholder. -/
def closeBr : Char :=
  '\x7d'

/-- One-pass scanner for Python's `str.format` on string keys without format
specs: the fragment the notebook's templates use.  The first argument is
`none` outside a placeholder and `some acc` (reversed name so far) inside
one.  A doubled brace is a literal brace; a placeholder name is looked up
when its closing brace arrives; a lone closing brace or an unterminated
placeholder is malformed. -/
def fmtGo (kw : List (List Char × List Char)) : Option (List Char) → List Char → Except FmtError (List Char)
  | none, [] => .ok []
  | none, c :: rest =>
      if c = openBr then
        match rest with
        | [] => .error .malformed
        | c2 :: rest2 =>
            if c2 = openBr then (fun t => openBr :: t) <$> fmtGo kw none rest2
            else fmtGo kw (some []) (c2 :: rest2)
      else if c = closeBr then
        match rest with
        | [] => .error .malformed
        | c2 :: rest2 =>
            if c2 = closeBr then (fun t => closeBr :: t) <$> fmtGo kw none rest2
            else .error .malformed
      else (fun t => c :: t) <$> fmtGo kw none rest
  | some _, [] => .error .malformed
  | some acc, c :: rest =>
      if c = closeBr then
        match lookupKw acc.reverse kw with
        | none => .error (.missingKey acc.reverse)
        | some v => (fun t => v ++ t) <$> fmtGo kw none rest
      else fmtGo kw (some (c :: acc)) rest

/-- The placeholder names a template references, collected by the same scan
as `fmtGo`. -/
def refsGo : Option (List Char) → List Char → List (List Char)
  | _, [] => []
  | none, c :: rest =>
      if c = openBr then
        match rest with
        | [] => []
        | c2 :: rest2 =>
            if c2 = openBr then refsGo none rest2
            else refsGo (some []) (c2 :: rest2)
      else if c = closeBr then
        match rest with
        | [] => []
        | c2 :: rest2 =>
            if c2 = closeBr then refsGo none rest2
            else refsGo none (c2 :: rest2)
      else refsGo none rest
  | some acc, c :: rest =>
      if c = closeBr then acc.reverse :: refsGo none rest
      else refsGo (some (c :: acc)) rest

/-- The placeholder names referenced by a template. -/
def placeholderRefs (template : List Char) : List (List Char) :=
  refsGo none template

/-- Key of the popped `intermediate_steps` argument. -/
def intermediateStepsKey : List Char :=
  "intermediate_steps".toList

/-- Key of the generated scratchpad substitution. -/
def agentScratchpadKey : List Char :=
  "agent_scratchpad".toList

/-- Key of the generated tools substitution. -/
def toolsKey : List Char :=
  "tools".toList

/-- Key of the generated tool-name substitution. -/
def toolNamesKey : List Char :=
  "tool_names".toList

/-- The substitution set `CustomPromptTemplate.format` hands to
`str.format`: the caller's keyword arguments with `intermediate_steps`
popped, and `agent_scratchpad`, `tools`, `tool_names` assigned (the three
generated entries are placed first so that the first-match lookup realises
the dict overwrite). -/
def customKw (tools : List Tool) (steps : List (AgentAction × List Char))
    (kwargs : List (List Char × List Char)) : List (List Char × List Char) :=
  (agentScratchpadKey, renderScratchpad steps)
    :: (toolsKey, renderTools tools)
    :: (toolNamesKey, renderToolNames tools)
    :: removeKey intermediateStepsKey kwargs

/-- Embedding of `CustomPromptTemplate.format`: pop `intermediate_steps`,
render the scratchpad and the two tool listings into the substitution set,
then run the template substitution. -/
def CustomPromptTemplate.format (template : List Char) (tools : List Tool)
    (steps : List (AgentAction × List Char))
    (kwargs : List (List Char × List Char)) : Except FmtError (List Char) :=
  fmtGo (customKw tools steps kwargs) none template

/-!  Specification-side definitions, written from the wording of the claims
(for comparison with the source-side functions above). -/

/-- Modelled from the spec: the portion of `l` after the last occurrence of
`M`, or `none` when `M` (assumed non-empty) does not occur; later
occurrences take priority over earlier ones. -/
def afterLastAux (M : List Char) : List Char → Option (List Char)
  | [] => none
  | c :: rest =>
      match afterLastAux M rest with
      | some u => some u
      | none =>
          if startsWith M (c :: rest) then some ((c :: rest).drop M.length) else none

/-- `M` has no non-trivial border: no proper non-empty suffix of `M` is also
a prefix of `M`.  This is what makes occurrences of `M` non-overlapping, so
that the left-to-right split of `pySplit` finds the true last occurrence. -/
def borderFree (M : List Char) : Prop :=
  ∀ k, k < M.length → 0 < k → M.drop k ≠ M.take (M.length - k)

/-- Modelled from the claim wording of C3: remove one leading double quote if
present. -/
def stripOneLeadQuote : List Char → List Char
  | '\"' :: rest => rest
  | l => l

/-- Modelled from the claim wording of C3: remove one trailing double quote
if present. -/
def stripOneTrailQuote (l : List Char) : List Char :=
  (stripOneLeadQuote l.reverse).reverse

/-- Modelled from the claim wording of C3: the tool input as the claim
states it — the raw capture trimmed of leading spaces and of exactly one
layer of surrounding double quotes. -/
def claimedToolInputC3 (raw : List Char) : List Char :=
  stripOneTrailQuote (stripOneLeadQuote (raw.dropWhile isSpaceCh))

/-- The amended description of the tool input: the raw capture trimmed of
leading and trailing spaces and then of all leading and trailing double
quotes (Python's `strip(" ").strip('"')`). -/
def toolInputAmendedSpec (raw : List Char) : List Char :=
  pyStrip isQuoteCh (pyStrip isSpaceCh raw)

/-- The text of the line an occurrence sits on, up to the occurrence: the
characters of the preceding text `a` after its last newline (returned
reversed, which is irrelevant to the emptiness and any-tests used on it). -/
def linePre (a : List Char) : List Char :=
  a.reverse.takeWhile (fun c => !(c == '\n'))

/-- Concatenation of a list of strings with no separator. -/
def listConcat : List (List Char) → List Char
  | [] => []
  | x :: rest => x ++ listConcat rest

/-- The text one (action, observation) pair contributes to the scratchpad,
as the claim words it. -/
def pairRender (p : AgentAction × List Char) : List Char :=
  p.1.log ++ obsTok ++ p.2 ++ thoughtTok

/-- Claim C9, stated as written: some input without the final-answer marker
has every occurrence of the token `Action` sitting mid-line — preceded by
non-whitespace text on its own line — yet parses to an Action Step. -/
def midlineClaim : Prop :=
  ∃ t, occursIn finalAnswerMarker t = false ∧
    (∀ a b, t = a ++ actionTok ++ b →
      (linePre a).any (fun c => !(isWs c)) = true) ∧
    ∃ act, CustomOutputParser.parse t = .ok (.action act)

/-!  Concrete inputs used by witnesses and counterexamples. -/

/-- An input holding both an action pair and a final-answer marker. -/
def exFinalBoth : List Char :=
  "Action: Search\nAction Input: x\nFinal Answer: 42\n".toList

/-- An input with neither marker (the spec's example). -/
def exNeither : List Char :=
  "I am thinking but not done".toList

/-- The quoted-input example of the claims, trailing newline included. -/
def exHello : List Char :=
  "Thought: x\nAction: Search\nAction Input: \"hello world\"\n".toList

/-- The quoted-input example without the trailing newline. -/
def exHelloNoNl : List Char :=
  "Thought: x\nAction: Search\nAction Input: \"hello world\"".toList

/-- An input whose captured tool input carries two layers of quotes. -/
def exDoubleQuotes : List Char :=
  "Action: Search\nAction Input: \"\"x\"\"".toList

/-- An input whose lazy tool-name capture spans two lines. -/
def exMultiline : List Char :=
  "Action: foo\nbar\nAction Input: baz".toList

/-- The unnumbered action example. -/
def exUnnumbered : List Char :=
  "Action: Search\nAction Input: foo".toList

/-- The numbered action shape, generic over the two digit suffixes
(associated to the right so that the concrete prefixes reduce). -/
def numberedInput (d1 d2 : List Char) : List Char :=
  "Action ".toList ++ (d1 ++ (": Search\nAction Input ".toList ++ (d2 ++ ": foo".toList)))

/-- Two numbered action pairs in one input. -/
def exDoubled : List Char :=
  "Action 1: Search\nAction Input 1: foo\nAction 2: Other\nAction Input 2: bar".toList

/-- An input whose tool-name-anchoring Action token sits mid-line. -/
def exMidline : List Char :=
  "Note: Action: Search\nAction Input: foo".toList

/-- The text preceding the Action token in `exMidline`. -/
def exMidlinePre : List Char :=
  "Note: ".toList

/-- Tool name extracted in several examples. -/
def searchTok : List Char :=
  "Search".toList

/-- Tool input extracted in several examples. -/
def fooTok : List Char :=
  "foo".toList

/-- The final output extracted from `exFinalBoth`. -/
def fortyTwoTok : List Char :=
  "42".toList

/-- The finish value produced by parsing `exFinalBoth`. -/
def finishBoth : AgentFinish :=
  { output := fortyTwoTok, log := exFinalBoth }

/-- The action value produced by parsing `exUnnumbered`. -/
def actUnnumbered : AgentAction :=
  { tool := searchTok, tool_input := fooTok, log := exUnnumbered }

/-- The text after the Action token in `exMidline`. -/
def exMidlineRest : List Char :=
  ": Search\nAction Input: foo".toList

/-- The action value produced by parsing `exMidline`. -/
def actMidline : AgentAction :=
  { tool := searchTok, tool_input := fooTok, log := exMidline }

/-- The tool name extracted from `exMultiline`: it spans two lines. -/
def multilineToolName : List Char :=
  "foo\nbar".toList

/-- The tool input extracted from `exMultiline`. -/
def bazTok : List Char :=
  "baz".toList

/-- The action value produced by parsing `exMultiline`. -/
def actMultiline : AgentAction :=
  { tool := multilineToolName, tool_input := bazTok, log := exMultiline }

/-- Group 1 captured on `exMultiline`. -/
def g1Multiline : List Char :=
  " foo\nbar".toList

/-- Group 1 captured on the `Search` examples. -/
def spSearchTok : List Char :=
  " Search".toList

/-- The tool input the claim expects on the quoted example. -/
def helloTok : List Char :=
  "hello world".toList

/-- The tool input the code actually yields on the quoted example with the
trailing newline: the newline blocks the trailing quote strip. -/
def helloBadTok : List Char :=
  "hello world\"\n".toList

/-- The action value produced by parsing `exHello`. -/
def actHello : AgentAction :=
  { tool := searchTok, tool_input := helloBadTok, log := exHello }

/-- The action value produced by parsing `exHelloNoNl`. -/
def actHelloNoNl : AgentAction :=
  { tool := searchTok, tool_input := helloTok, log := exHelloNoNl }

/-- Group 2 captured on `exHello`. -/
def helloRawCapture : List Char :=
  "\"hello world\"\n".toList

/-- Group 2 captured on `exDoubleQuotes`. -/
def dquoteRawCapture : List Char :=
  "\"\"x\"\"".toList

/-- The tool input the code yields on `exDoubleQuotes`: all quote layers
are stripped. -/
def xTok : List Char :=
  "x".toList

/-- The action value produced by parsing `exDoubleQuotes`. -/
def actDoubleQuotes : AgentAction :=
  { tool := searchTok, tool_input := xTok, log := exDoubleQuotes }

/-- The tool input extracted from `exDoubled`: the greedy second capture
swallows the second action pair. -/
def doubledTailTok : List Char :=
  "foo\nAction 2: Other\nAction Input 2: bar".toList

/-- The digit suffix of the claim's numbered example. -/
def twoTok : List Char :=
  "2".toList

/-- A template consisting of the tools placeholder alone. -/
def toolsTemplate : List Char :=
  "{tools}".toList

/-- A template consisting of the tool-names placeholder alone. -/
def toolNamesTemplate : List Char :=
  "{tool_names}".toList

/-- A template referencing a placeholder the renderer never supplies. -/
def questionTemplate : List Char :=
  "{question}".toList

/-- The name referenced by `questionTemplate`. -/
def questionKey : List Char :=
  "question".toList

/-!  Basic lemmas about the substring machinery. -/

theorem startsWith_iff (p : List Char) : ∀ l, startsWith p l = true ↔ ∃ r, l = p ++ r := by
  induction p with
  | nil => intro l; simp [startsWith]
  | cons x xs ih =>
      intro l
      cases l with
      | nil => simp [startsWith]
      | cons c cs =>
          simp only [startsWith, Bool.and_eq_true, beq_iff_eq, ih, List.cons_append,
            List.cons.injEq]
          constructor
          · rintro ⟨hx, r, hr⟩
            exact ⟨r, hx.symm, hr⟩
          · rintro ⟨r, hc, hr⟩
            exact ⟨hc.symm, r, hr⟩

theorem startsWith_append (p x y : List Char) (h : startsWith p x = true) :
    startsWith p (x ++ y) = true := by
  rcases (startsWith_iff p x).mp h with ⟨r, rfl⟩
  exact (startsWith_iff p _).mpr ⟨r ++ y, by simp⟩

theorem occursIn_nil_iff (pat : List Char) : occursIn pat [] = startsWith pat [] := rfl

theorem occursIn_cons (pat : List Char) (c : Char) (rest : List Char) :
    occursIn pat (c :: rest) = (startsWith pat (c :: rest) || occursIn pat rest) := rfl

theorem occursIn_append_left (M z : List Char) (h : occursIn M z = true) :
    ∀ y, occursIn M (y ++ z) = true := by
  intro y
  induction y with
  | nil => simpa using h
  | cons c y' ih => simp [occursIn_cons, ih]

theorem occursIn_nil_pat : ∀ b, occursIn ([] : List Char) b = true := by
  intro b
  cases b <;> simp [occursIn, startsWith]

theorem occursIn_append_right (M s : List Char) (h : occursIn M s = true) :
    ∀ b, occursIn M (s ++ b) = true := by
  induction s with
  | nil =>
      intro b
      cases M with
      | nil => simpa using occursIn_nil_pat b
      | cons m ms => simp [occursIn, startsWith] at h
  | cons c s' ih =>
      intro b
      rw [occursIn_cons, Bool.or_eq_true] at h
      rw [List.cons_append, occursIn_cons, Bool.or_eq_true]
      rcases h with h | h
      · exact Or.inl (by simpa using startsWith_append M (c :: s') b h)
      · exact Or.inr (ih h b)

theorem occursIn_wrap (M a s b : List Char) (h : occursIn M s = true) :
    occursIn M (a ++ s ++ b) = true := by
  have h1 := occursIn_append_right M s h b
  have h2 := occursIn_append_left M (s ++ b) h1 a
  simpa using h2

theorem occursIn_exists_drop (M : List Char) :
    ∀ l, occursIn M l = true → ∃ i, startsWith M (l.drop i) = true := by
  intro l
  induction l with
  | nil => intro h; exact ⟨0, h⟩
  | cons c rest ih =>
      intro h
      rw [occursIn_cons, Bool.or_eq_true] at h
      rcases h with h | h
      · exact ⟨0, h⟩
      · rcases ih h with ⟨i, hi⟩
        exact ⟨i + 1, by simpa using hi⟩

theorem occursIn_of_drop (M : List Char) :
    ∀ l i, startsWith M (l.drop i) = true → occursIn M l = true := by
  intro l
  induction l with
  | nil => intro i h; simpa [occursIn] using h
  | cons c rest ih =>
      intro i h
      cases i with
      | zero => rw [occursIn_cons, Bool.or_eq_true]; exact Or.inl h
      | succ i' =>
          rw [occursIn_cons, Bool.or_eq_true]
          exact Or.inr (ih i' (by simpa using h))

theorem pyStrip_is_mid (p : Char → Bool) (l : List Char) :
    ∃ a b, l = a ++ pyStrip p l ++ b := by
  refine ⟨l.takeWhile p, ((l.dropWhile p).reverse.takeWhile p).reverse, ?_⟩
  conv_lhs => rw [← List.takeWhile_append_dropWhile p l]
  rw [List.append_assoc]
  congr 1
  rw [pyStrip, ← List.reverse_append, List.takeWhile_append_dropWhile, List.reverse_reverse]

theorem occursIn_of_pyStrip (M : List Char) (p : Char → Bool) (l : List Char)
    (h : occursIn M (pyStrip p l) = true) : occursIn M l = true := by
  rcases pyStrip_is_mid p l with ⟨a, b, hl⟩
  rw [hl]
  exact occursIn_wrap M a (pyStrip p l) b h

/-!  Lemmas about the last-occurrence view and the split. -/

theorem afterLastAux_isSome (M : List Char) (hM : M ≠ []) :
    ∀ l, (afterLastAux M l).isSome = occursIn M l := by
  intro l
  induction l with
  | nil =>
      cases M with
      | nil => exact absurd rfl hM
      | cons m ms => simp [afterLastAux, occursIn, startsWith]
  | cons c rest ih =>
      rw [occursIn_cons, ← ih]
      cases h : afterLastAux M rest with
      | some u => simp [afterLastAux, h]
      | none =>
          simp only [afterLastAux, h, Option.isSome_none, Bool.or_false]
          by_cases hs : startsWith M (c :: rest) = true <;> simp [hs]

theorem afterLastAux_append (M z : List Char) (hM : M ≠ []) (h : occursIn M z = true) :
    ∀ y, afterLastAux M (y ++ z) = afterLastAux M z := by
  intro y
  induction y with
  | nil => rfl
  | cons c y' ih =>
      have hsome : (afterLastAux M (y' ++ z)).isSome = true := by
        rw [afterLastAux_isSome M hM]
        exact occursIn_append_left M z h y'
      rcases Option.isSome_iff_exists.mp hsome with ⟨u, hu⟩
      rw [List.cons_append]
      simp only [afterLastAux, hu]
      rw [← ih, hu]

theorem pySplitFuel_ne_nil (M : List Char) : ∀ n l, pySplitFuel M n l ≠ [] := by
  intro n l
  cases n with
  | zero => cases l <;> simp [pySplitFuel]
  | succ n' =>
      cases l with
      | nil => simp [pySplitFuel]
      | cons c rest =>
          simp only [pySplitFuel]
          by_cases hs : startsWith M (c :: rest) = true
          · simp [hs]
          · simp only [hs, if_false, Bool.false_eq_true]
            cases pySplitFuel M n' rest <;> simp [consHead]

theorem pySplitFuel_single (M : List Char) :
    ∀ n l, occursIn M l = false → pySplitFuel M n l = [l] := by
  intro n
  induction n with
  | zero => intro l h; cases l <;> simp [pySplitFuel]
  | succ n' ih =>
      intro l h
      cases l with
      | nil => simp [pySplitFuel]
      | cons c rest =>
          rw [occursIn_cons, Bool.or_eq_false_iff] at h
          obtain ⟨hs, ho⟩ := h
          simp only [pySplitFuel, hs, if_false, Bool.false_eq_true]
          rw [ih rest ho]
          rfl

theorem pySplitFuel_length2 (M : List Char) (hM : M ≠ []) :
    ∀ n l, l.length ≤ n → occursIn M l = true → 2 ≤ (pySplitFuel M n l).length := by
  intro n
  induction n with
  | zero =>
      intro l hl h
      have : l = [] := List.eq_nil_of_length_eq_zero (Nat.le_zero.mp hl)
      subst this
      cases M with
      | nil => exact absurd rfl hM
      | cons m ms => simp [occursIn, startsWith] at h
  | succ n' ih =>
      intro l hl h
      cases l with
      | nil =>
          cases M with
          | nil => exact absurd rfl hM
          | cons m ms => simp [occursIn, startsWith] at h
      | cons c rest =>
          by_cases hs : startsWith M (c :: rest) = true
          · simp only [pySplitFuel, hs, if_true]
            have := pySplitFuel_ne_nil M n' ((c :: rest).drop M.length)
            have hpos := List.length_pos.mpr this
            simp only [List.length_cons]
            omega
          · have hs' : startsWith M (c :: rest) = false := Bool.eq_false_iff.mpr hs
            have ho : occursIn M rest = true := by
              rw [occursIn_cons, hs', Bool.false_or] at h
              exact h
            have hlen' : rest.length ≤ n' := by
              simp only [List.length_cons] at hl
              omega
            have h2 := ih rest hlen' ho
            simp only [pySplitFuel, hs', if_false, Bool.false_eq_true]
            cases hx : pySplitFuel M n' rest with
            | nil => rw [hx] at h2; simp at h2
            | cons a b =>
                rw [hx] at h2
                simp only [consHead, List.length_cons] at h2 ⊢
                omega

/-- The last fragment of the Python split is exactly the portion of the text
after the last occurrence of the (non-empty, border-free) separator, and that
fragment holds no further occurrence of the separator. -/
theorem splitLast_spec (M : List Char) (hM : M ≠ []) (hBF : borderFree M) :
    ∀ n t, t.length ≤ n → occursIn M t = true →
      afterLastAux M t = some ((pySplitFuel M n t).getLastD []) ∧
      occursIn M ((pySplitFuel M n t).getLastD []) = false := by
  intro n
  induction n with
  | zero =>
      intro t ht h
      have : t = [] := List.eq_nil_of_length_eq_zero (Nat.le_zero.mp ht)
      subst this
      cases M with
      | nil => exact absurd rfl hM
      | cons m ms => simp [occursIn, startsWith] at h
  | succ n' ih =>
      intro t ht h
      cases t with
      | nil =>
          cases M with
          | nil => exact absurd rfl hM
          | cons m ms => simp [occursIn, startsWith] at h
      | cons c rest =>
          by_cases hs : startsWith M (c :: rest) = true
          · rcases (startsWith_iff M _).mp hs with ⟨t', ht'⟩
            have hdrop : (c :: rest).drop M.length = t' := by
              rw [ht']
              exact List.drop_left M t'
            have hMpos : 1 ≤ M.length := by
              cases M with
              | nil => exact absurd rfl hM
              | cons m ms => simp
            have hlen' : t'.length ≤ n' := by
              have h2 : (c :: rest).length = M.length + t'.length := by rw [ht']; simp
              simp only [List.length_cons] at h2 ht
              omega
            have hsplit : pySplitFuel M (n' + 1) (c :: rest)
                = [] :: pySplitFuel M n' t' := by
              simp [pySplitFuel, hs, hdrop]
            have hlast : (pySplitFuel M (n' + 1) (c :: rest)).getLastD []
                = (pySplitFuel M n' t').getLastD [] := by
              rw [hsplit, List.getLastD_cons]
            rw [hlast]
            by_cases ho : occursIn M t' = true
            · obtain ⟨ih1, ih2⟩ := ih t' hlen' ho
              refine ⟨?_, ih2⟩
              rw [ht', afterLastAux_append M t' hM ho M, ih1]
            · have ho' : occursIn M t' = false := Bool.eq_false_iff.mpr ho
              have hsingle : pySplitFuel M n' t' = [t'] :=
                pySplitFuel_single M n' t' ho'
              rw [hsingle]
              have hlastv : ([t'] : List (List Char)).getLastD [] = t' := rfl
              rw [hlastv]
              refine ⟨?_, ho'⟩
              have hrest : occursIn M rest = false := by
                by_contra hx
                have hx' : occursIn M rest = true := by
                  revert hx
                  cases occursIn M rest <;> simp
                rcases occursIn_exists_drop M rest hx' with ⟨i, hi⟩
                have hdrop2 : rest.drop i = (M ++ t').drop (i + 1) := by
                  rw [← ht']
                  rfl
                rw [hdrop2] at hi
                by_cases hkM : M.length ≤ i + 1
                · have heq : M.length + (i + 1 - M.length) = i + 1 := by omega
                  have hstep : (M ++ t').drop (i + 1) = t'.drop (i + 1 - M.length) := by
                    calc (M ++ t').drop (i + 1)
                        = (M ++ t').drop (M.length + (i + 1 - M.length)) := by rw [heq]
                      _ = t'.drop (i + 1 - M.length) := @List.drop_append _ M t' _
                  rw [hstep] at hi
                  have := occursIn_of_drop M t' _ hi
                  rw [ho'] at this
                  exact Bool.false_ne_true this
                · have hklt : i + 1 < M.length := by omega
                  have hdrop3 : (M ++ t').drop (i + 1) = M.drop (i + 1) ++ t' :=
                    List.drop_append_of_le_length (Nat.le_of_lt hklt)
                  rw [hdrop3] at hi
                  rcases (startsWith_iff M _).mp hi with ⟨r, hr⟩
                  have hlen3 : (M.drop (i + 1)).length = M.length - (i + 1) := by simp
                  have h1 : (M.drop (i + 1) ++ t').take (M.length - (i + 1))
                      = M.drop (i + 1) := List.take_left' hlen3
                  have h2 : (M ++ r).take (M.length - (i + 1))
                      = M.take (M.length - (i + 1)) :=
                    List.take_append_of_le_length (Nat.sub_le _ _)
                  rw [hr] at h1
                  exact absurd (h1.symm.trans h2) (hBF (i + 1) hklt (by omega))
              have hnone : afterLastAux M rest = none := by
                have hiso := afterLastAux_isSome M hM rest
                rw [hrest] at hiso
                cases hx : afterLastAux M rest with
                | none => rfl
                | some u => rw [hx] at hiso; simp at hiso
              simp only [afterLastAux, hnone]
              simp [hs, hdrop]
          · have hs' : startsWith M (c :: rest) = false := Bool.eq_false_iff.mpr hs
            have ho : occursIn M rest = true := by
              rw [occursIn_cons, hs', Bool.false_or] at h
              exact h
            have hlen' : rest.length ≤ n' := by
              simp only [List.length_cons] at ht
              omega
            obtain ⟨ih1, ih2⟩ := ih rest hlen' ho
            have h2 := pySplitFuel_length2 M hM n' rest hlen' ho
            have hsplit : pySplitFuel M (n' + 1) (c :: rest)
                = consHead c (pySplitFuel M n' rest) := by
              simp [pySplitFuel, hs']
            cases hx : pySplitFuel M n' rest with
            | nil => rw [hx] at h2; simp at h2
            | cons a b =>
                cases b with
                | nil => rw [hx] at h2; simp at h2
                | cons a2 b2 =>
                    rw [hsplit, hx]
                    have hch : consHead c (a :: a2 :: b2) = (c :: a) :: a2 :: b2 := rfl
                    rw [hch, List.getLastD_cons]
                    have e1 : (a2 :: b2).getLastD (c :: a) = (a2 :: b2).getLastD a := by
                      rw [List.getLastD_cons, List.getLastD_cons]
                    rw [e1]
                    rw [hx, List.getLastD_cons] at ih1 ih2
                    refine ⟨?_, ih2⟩
                    simp only [afterLastAux, ih1]

/-- Instantiated form: the parser's split-based final output against the
last-occurrence description, for the concrete marker. -/
theorem splitLast_marker (t : List Char) (h : occursIn finalAnswerMarker t = true) :
    afterLastAux finalAnswerMarker t = some ((pySplit finalAnswerMarker t).getLastD []) ∧
    occursIn finalAnswerMarker ((pySplit finalAnswerMarker t).getLastD []) = false := by
  have hM : finalAnswerMarker ≠ [] := by decide
  have hBF : borderFree finalAnswerMarker := by
    intro k hk hk0
    rw [show finalAnswerMarker.length = 13 from rfl] at hk
    interval_cases k <;> decide
  exact splitLast_spec finalAnswerMarker hM hBF t.length t (Nat.le_refl _) h

/-- Claim C1: whenever the input contains `"Final Answer:"`, `parse` returns
a Final Result — never an Action Step and never an error — whose `output` is
the portion of the input after the last occurrence of the marker with
surrounding whitespace trimmed and whose `raw_text` (`log`) is the whole
input; this holds regardless of any `Action:`/`Action Input:` pair also
present. -/
theorem parse_finalAnswer_priority (t : List Char)
    (h : occursIn finalAnswerMarker t = true) :
    ∃ u, afterLastAux finalAnswerMarker t = some u ∧
      CustomOutputParser.parse t = .ok (.finish { output := pyStripWs u, log := t }) := by
  obtain ⟨h1, _⟩ := splitLast_marker t h
  exact ⟨(pySplit finalAnswerMarker t).getLastD [], h1, by
    simp [CustomOutputParser.parse, h]⟩

/-- Witness for C1 at a concrete input holding both an action pair and a
later final-answer marker. -/
theorem parse_finalAnswer_priority_witness :
    occursIn finalAnswerMarker exFinalBoth = true ∧
    (∃ u, afterLastAux finalAnswerMarker exFinalBoth = some u ∧
      CustomOutputParser.parse exFinalBoth
        = .ok (.finish { output := pyStripWs u, log := exFinalBoth })) :=
  ⟨by decide, parse_finalAnswer_priority exFinalBoth (by decide)⟩

/-- Claim C2: `parse` fails — with the error carrying the original input
text — exactly when the input does not contain `"Final Answer:"` and the
action-extraction pattern finds no match; in every other case it returns a
value. -/
theorem parse_error_iff (t : List Char) :
    ((∃ e, CustomOutputParser.parse t = .error e) ↔
      (occursIn finalAnswerMarker t = false ∧ reSearch t = none)) ∧
    (∀ e, CustomOutputParser.parse t = .error e → e.text = t) := by
  constructor
  · constructor
    · rintro ⟨e, he⟩
      by_cases hin : occursIn finalAnswerMarker t = true
      · simp [CustomOutputParser.parse, hin] at he
      · have hin' : occursIn finalAnswerMarker t = false := Bool.eq_false_iff.mpr hin
        refine ⟨hin', ?_⟩
        cases hr : reSearch t with
        | some p =>
            obtain ⟨g1, g2⟩ := p
            simp [CustomOutputParser.parse, hin', hr] at he
        | none => rfl
    · rintro ⟨h1, h2⟩
      exact ⟨{ text := t }, by simp [CustomOutputParser.parse, h1, h2]⟩
  · intro e he
    by_cases hin : occursIn finalAnswerMarker t = true
    · simp [CustomOutputParser.parse, hin] at he
    · have hin' : occursIn finalAnswerMarker t = false := Bool.eq_false_iff.mpr hin
      cases hr : reSearch t with
      | some p =>
          obtain ⟨g1, g2⟩ := p
          simp [CustomOutputParser.parse, hin', hr] at he
      | none =>
          simp [CustomOutputParser.parse, hin', hr] at he
          rw [← he]

/-- Witness for C2 at the spec's no-marker example. -/
theorem parse_error_iff_witness :
    ∃ e, CustomOutputParser.parse exNeither = .error e :=
  ((parse_error_iff exNeither).1).mpr (by decide)

/-- Claim C10: a Final Result's `output` never contains the substring
`"Final Answer:"`, because the output is the portion after the last
occurrence of that marker. -/
theorem finish_output_no_marker (t : List Char) (f : AgentFinish)
    (h : CustomOutputParser.parse t = .ok (.finish f)) :
    occursIn finalAnswerMarker f.output = false := by
  by_cases hin : occursIn finalAnswerMarker t = true
  · obtain ⟨_, h2⟩ := splitLast_marker t hin
    rw [List.getLastD_eq_getLast?] at h2
    simp [CustomOutputParser.parse, hin] at h
    rw [← h]
    show occursIn finalAnswerMarker
      (pyStripWs ((pySplit finalAnswerMarker t).getLast?.getD [])) = false
    cases hb : occursIn finalAnswerMarker
        (pyStripWs ((pySplit finalAnswerMarker t).getLast?.getD [])) with
    | false => rfl
    | true =>
        have hoc := occursIn_of_pyStrip finalAnswerMarker isWs _ hb
        rw [h2] at hoc
        exact absurd hoc (by simp)
  · have hin' : occursIn finalAnswerMarker t = false := Bool.eq_false_iff.mpr hin
    cases hr : reSearch t with
    | some p =>
        obtain ⟨g1, g2⟩ := p
        simp [CustomOutputParser.parse, hin', hr] at h
    | none => simp [CustomOutputParser.parse, hin', hr] at h

/-- Witness for C10 at a concrete input whose marker occurs once. -/
theorem finish_output_no_marker_witness :
    occursIn finalAnswerMarker finishBoth.output = false :=
  finish_output_no_marker exFinalBoth finishBoth (by rfl)

/-!  Scratchpad and tool-listing rendering. -/

theorem foldl_scratchpad (steps : List (AgentAction × List Char)) :
    ∀ acc, steps.foldl (fun acc p => acc ++ p.1.log ++ obsTok ++ p.2 ++ thoughtTok) acc
      = acc ++ listConcat (steps.map pairRender) := by
  induction steps with
  | nil => intro acc; simp [listConcat]
  | cons p rest ih =>
      intro acc
      rw [List.foldl_cons, ih]
      simp [listConcat, pairRender, List.append_assoc]

theorem parse_action_log (t : List Char) (a : AgentAction)
    (h : CustomOutputParser.parse t = .ok (.action a)) : a.log = t := by
  by_cases hin : occursIn finalAnswerMarker t = true
  · simp [CustomOutputParser.parse, hin] at h
  · have hin' : occursIn finalAnswerMarker t = false := Bool.eq_false_iff.mpr hin
    cases hr : reSearch t with
    | some p =>
        obtain ⟨g1, g2⟩ := p
        simp [CustomOutputParser.parse, hin', hr] at h
        rw [← h]
    | none => simp [CustomOutputParser.parse, hin', hr] at h

/-- Claim C4: the scratchpad is the in-order concatenation, with no other
separator, of each pair's action `raw_text`, a newline, `"Observation: "`,
the observation, a newline and `"Thought: "`; the empty history yields the
empty string; and an Action Step parsed from `t`, fed back with its
observation, reproduces exactly `t ++ "\nObservation: " ++ obs ++
"\nThought: "`. -/
theorem scratchpad_spec (steps : List (AgentAction × List Char)) (t : List Char)
    (a : AgentAction) (obs : List Char)
    (h : CustomOutputParser.parse t = .ok (.action a)) :
    renderScratchpad steps = listConcat (steps.map pairRender) ∧
    renderScratchpad [] = [] ∧
    renderScratchpad [(a, obs)] = t ++ obsTok ++ obs ++ thoughtTok := by
  refine ⟨by simpa [renderScratchpad] using foldl_scratchpad steps [], rfl, ?_⟩
  have hlog := parse_action_log t a h
  simp [renderScratchpad, hlog]

/-- Witness for C4 at a concrete parsed action. -/
theorem scratchpad_spec_witness :
    renderScratchpad [(actUnnumbered, fooTok)]
      = exUnnumbered ++ obsTok ++ fooTok ++ thoughtTok :=
  (scratchpad_spec [(actUnnumbered, fooTok)] exUnnumbered actUnnumbered fooTok (by rfl)).2.2

/-- Claim C7: the rendered tool listing is one `"<name>: <description>"`
line per descriptor joined by newlines in declaration order, the rendered
tool-name listing joins the names with `", "` in the same order (shown for
lengths 0, 1 and N), and the renderer substitutes exactly these strings for
the `tools` and `tool_names` placeholders. -/
theorem toolListing_spec :
    (renderTools [] = [] ∧ renderToolNames [] = []) ∧
    (∀ tl : Tool, renderTools [tl] = tl.name ++ colonSpaceTok ++ tl.description ∧
      renderToolNames [tl] = tl.name) ∧
    (∀ (tl tl2 : Tool) (ts : List Tool),
      renderTools (tl :: tl2 :: ts)
        = tl.name ++ colonSpaceTok ++ tl.description ++ newlineTok
            ++ renderTools (tl2 :: ts) ∧
      renderToolNames (tl :: tl2 :: ts)
        = tl.name ++ commaSpaceTok ++ renderToolNames (tl2 :: ts)) ∧
    (∀ (ts : List Tool) (steps : List (AgentAction × List Char))
        (kwargs : List (List Char × List Char)),
      CustomPromptTemplate.format toolsTemplate ts steps kwargs = .ok (renderTools ts) ∧
      CustomPromptTemplate.format toolNamesTemplate ts steps kwargs
        = .ok (renderToolNames ts)) := by
  refine ⟨⟨rfl, rfl⟩, fun tl => ⟨rfl, rfl⟩, fun tl tl2 ts => ⟨?_, ?_⟩, fun ts steps kwargs => ⟨?_, ?_⟩⟩
  · simp [renderTools, pyJoin, List.append_assoc]
  · simp [renderToolNames, pyJoin, List.append_assoc]
  · have h1 : CustomPromptTemplate.format toolsTemplate ts steps kwargs
        = .ok (renderTools ts ++ []) := rfl
    rw [List.append_nil] at h1
    exact h1
  · have h1 : CustomPromptTemplate.format toolNamesTemplate ts steps kwargs
        = .ok (renderToolNames ts ++ []) := rfl
    rw [List.append_nil] at h1
    exact h1

/-!  Missing-placeholder behaviour of the template substitution.  The step
lemmas below unfold `fmtGo` and `refsGo` by exactly one scanner move. -/

theorem brNe : ¬ closeBr = openBr := by decide

theorem fmtGo_stepOpenNil (kw : List (List Char × List Char)) :
    fmtGo kw none [openBr] = .error .malformed := by
  rw [fmtGo.eq_def]
  simp

theorem fmtGo_stepOpenOpen (kw : List (List Char × List Char)) (r : List Char) :
    fmtGo kw none (openBr :: openBr :: r) = (fun t => openBr :: t) <$> fmtGo kw none r := by
  rw [fmtGo.eq_def]
  simp

theorem fmtGo_stepOpen (kw : List (List Char × List Char)) (c2 : Char) (r : List Char)
    (h : ¬ c2 = openBr) :
    fmtGo kw none (openBr :: c2 :: r) = fmtGo kw (some []) (c2 :: r) := by
  rw [fmtGo.eq_def]
  simp [h]

theorem fmtGo_stepCloseNil (kw : List (List Char × List Char)) :
    fmtGo kw none [closeBr] = .error .malformed := by
  rw [fmtGo.eq_def]
  simp [brNe]

theorem fmtGo_stepCloseClose (kw : List (List Char × List Char)) (r : List Char) :
    fmtGo kw none (closeBr :: closeBr :: r) = (fun t => closeBr :: t) <$> fmtGo kw none r := by
  rw [fmtGo.eq_def]
  simp [brNe]

theorem fmtGo_stepCloseLone (kw : List (List Char × List Char)) (c2 : Char) (r : List Char)
    (h : ¬ c2 = closeBr) :
    fmtGo kw none (closeBr :: c2 :: r) = .error .malformed := by
  rw [fmtGo.eq_def]
  simp [brNe, h]

theorem fmtGo_stepOther (kw : List (List Char × List Char)) (c : Char) (r : List Char)
    (h1 : ¬ c = openBr) (h2 : ¬ c = closeBr) :
    fmtGo kw none (c :: r) = (fun t => c :: t) <$> fmtGo kw none r := by
  rw [fmtGo.eq_def]
  simp [h1, h2]

theorem fmtGo_stepInsideClose (kw : List (List Char × List Char)) (acc r : List Char) :
    fmtGo kw (some acc) (closeBr :: r)
      = match lookupKw acc.reverse kw with
        | none => .error (.missingKey acc.reverse)
        | some v => (fun t => v ++ t) <$> fmtGo kw none r := by
  rw [fmtGo.eq_def]
  simp

theorem fmtGo_stepInside (kw : List (List Char × List Char)) (acc : List Char) (c : Char)
    (r : List Char) (h : ¬ c = closeBr) :
    fmtGo kw (some acc) (c :: r) = fmtGo kw (some (c :: acc)) r := by
  rw [fmtGo.eq_def]
  simp [h]

theorem refsGo_nil (st : Option (List Char)) : refsGo st [] = [] := by
  cases st <;> rfl

theorem refsGo_stepOpenNil : refsGo none [openBr] = [] := by
  rw [refsGo.eq_def]
  simp

theorem refsGo_stepOpenOpen (r : List Char) :
    refsGo none (openBr :: openBr :: r) = refsGo none r := by
  rw [refsGo.eq_def]
  simp

theorem refsGo_stepOpen (c2 : Char) (r : List Char) (h : ¬ c2 = openBr) :
    refsGo none (openBr :: c2 :: r) = refsGo (some []) (c2 :: r) := by
  rw [refsGo.eq_def]
  simp [h]

theorem refsGo_stepCloseClose (r : List Char) :
    refsGo none (closeBr :: closeBr :: r) = refsGo none r := by
  rw [refsGo.eq_def]
  simp [brNe]

theorem refsGo_stepCloseLone (c2 : Char) (r : List Char) (h : ¬ c2 = closeBr) :
    refsGo none (closeBr :: c2 :: r) = refsGo none (c2 :: r) := by
  rw [refsGo.eq_def]
  simp [brNe, h]

theorem refsGo_stepOther (c : Char) (r : List Char)
    (h1 : ¬ c = openBr) (h2 : ¬ c = closeBr) :
    refsGo none (c :: r) = refsGo none r := by
  rw [refsGo.eq_def]
  simp [h1, h2]

theorem refsGo_stepInsideClose (acc r : List Char) :
    refsGo (some acc) (closeBr :: r) = acc.reverse :: refsGo none r := by
  rw [refsGo.eq_def]
  simp

theorem refsGo_stepInside (acc : List Char) (c : Char) (r : List Char)
    (h : ¬ c = closeBr) :
    refsGo (some acc) (c :: r) = refsGo (some (c :: acc)) r := by
  rw [refsGo.eq_def]
  simp [h]

theorem fmtGo_missing (kw : List (List Char × List Char)) :
    ∀ n (st : Option (List Char)) (tmpl : List Char), tmpl.length ≤ n →
      ∀ name, name ∈ refsGo st tmpl → lookupKw name kw = none →
      ∃ e, fmtGo kw st tmpl = .error e := by
  intro n
  induction n with
  | zero =>
      intro st tmpl ht name hmem hlk
      have htn : tmpl = [] := List.eq_nil_of_length_eq_zero (Nat.le_zero.mp ht)
      subst htn
      rw [refsGo_nil] at hmem
      simp at hmem
  | succ n' ih =>
      intro st tmpl ht name hmem hlk
      cases st with
      | none =>
          cases tmpl with
          | nil => rw [refsGo_nil] at hmem; simp at hmem
          | cons c rest =>
              by_cases hb : c = openBr
              · subst hb
                cases rest with
                | nil => exact ⟨.malformed, fmtGo_stepOpenNil kw⟩
                | cons c2 rest2 =>
                    have hlen : rest2.length ≤ n' := by
                      simp only [List.length_cons] at ht
                      omega
                    by_cases hb2 : c2 = openBr
                    · subst hb2
                      rw [refsGo_stepOpenOpen] at hmem
                      obtain ⟨e, he⟩ := ih none rest2 hlen name hmem hlk
                      exact ⟨e, by rw [fmtGo_stepOpenOpen, he]; rfl⟩
                    · rw [refsGo_stepOpen c2 rest2 hb2] at hmem
                      obtain ⟨e, he⟩ := ih (some []) (c2 :: rest2)
                        (by simp only [List.length_cons] at ht ⊢; omega) name hmem hlk
                      exact ⟨e, by rw [fmtGo_stepOpen kw c2 rest2 hb2, he]⟩
              · by_cases hc : c = closeBr
                · subst hc
                  cases rest with
                  | nil => exact ⟨.malformed, fmtGo_stepCloseNil kw⟩
                  | cons c2 rest2 =>
                      have hlen : rest2.length ≤ n' := by
                        simp only [List.length_cons] at ht
                        omega
                      by_cases hb2 : c2 = closeBr
                      · subst hb2
                        rw [refsGo_stepCloseClose] at hmem
                        obtain ⟨e, he⟩ := ih none rest2 hlen name hmem hlk
                        exact ⟨e, by rw [fmtGo_stepCloseClose, he]; rfl⟩
                      · exact ⟨.malformed, fmtGo_stepCloseLone kw c2 rest2 hb2⟩
                · rw [refsGo_stepOther c rest hb hc] at hmem
                  obtain ⟨e, he⟩ := ih none rest
                    (by simp only [List.length_cons] at ht; omega) name hmem hlk
                  exact ⟨e, by rw [fmtGo_stepOther kw c rest hb hc, he]; rfl⟩
      | some acc =>
          cases tmpl with
          | nil => rw [refsGo_nil] at hmem; simp at hmem
          | cons c rest =>
              have hlen : rest.length ≤ n' := by
                simp only [List.length_cons] at ht
                omega
              by_cases hc : c = closeBr
              · subst hc
                rw [refsGo_stepInsideClose] at hmem
                rcases List.mem_cons.mp hmem with heq | hmem2
                · subst heq
                  exact ⟨.missingKey acc.reverse, by rw [fmtGo_stepInsideClose, hlk]⟩
                · cases hl2 : lookupKw acc.reverse kw with
                  | none =>
                      exact ⟨.missingKey acc.reverse, by rw [fmtGo_stepInsideClose, hl2]⟩
                  | some v =>
                      obtain ⟨e, he⟩ := ih none rest hlen name hmem2 hlk
                      exact ⟨e, by rw [fmtGo_stepInsideClose, hl2, he]; rfl⟩
              · rw [refsGo_stepInside acc c rest hc] at hmem
                obtain ⟨e, he⟩ := ih (some (c :: acc)) rest hlen name hmem hlk
                exact ⟨e, by rw [fmtGo_stepInside kw acc c rest hc, he]⟩

/-- Claim C8: if the template references a placeholder that is not among the
substitution values — after the renderer has added `agent_scratchpad`,
`tools` and `tool_names` — rendering fails with a `TemplateError` rather
than returning a string. -/
theorem format_missing_placeholder (template : List Char) (tools : List Tool)
    (steps : List (AgentAction × List Char)) (kwargs : List (List Char × List Char))
    (name : List Char)
    (hmem : name ∈ placeholderRefs template)
    (hlk : lookupKw name (customKw tools steps kwargs) = none) :
    ∃ e, CustomPromptTemplate.format template tools steps kwargs = .error e :=
  fmtGo_missing (customKw tools steps kwargs) template.length none template
    (Nat.le_refl _) name hmem hlk

/-- Witness for C8 at a template referencing an unsupplied placeholder. -/
theorem format_missing_placeholder_witness :
    ∃ e, CustomPromptTemplate.format questionTemplate [] [] [] = .error e :=
  format_missing_placeholder questionTemplate [] [] [] questionKey (by decide) (by rfl)

/-!  Soundness of the embedded matcher: every successful search decomposes
the input along the pattern's shape. -/

theorem scanG1_sound : ∀ l g1 g2, scanG1 l = some (g1, g2) →
    ∃ r2, l = g1 ++ '\n' :: r2 ∧ matchInputPart r2 = some g2 := by
  intro l
  induction l with
  | nil => intro g1 g2 h; simp [scanG1] at h
  | cons c rest ih =>
      intro g1 g2 h
      by_cases hc : c = '\n'
      · subst hc
        rw [scanG1] at h
        simp only [if_pos rfl] at h
        cases hm : matchInputPart rest with
        | some g2' =>
            rw [hm] at h
            injection h with h
            injection h with h1 h2
            subst h1
            subst h2
            exact ⟨rest, rfl, hm⟩
        | none =>
            rw [hm] at h
            cases hs : scanG1 rest with
            | none => rw [hs] at h; simp [consG1] at h
            | some p =>
                obtain ⟨g1', g2'⟩ := p
                rw [hs] at h
                simp only [consG1] at h
                injection h with h
                injection h with h1 h2
                subst h1
                subst h2
                obtain ⟨r2, hr, hmip⟩ := ih g1' g2' hs
                exact ⟨r2, by rw [hr]; rfl, hmip⟩
      · rw [scanG1] at h
        simp only [hc, if_false] at h
        cases hs : scanG1 rest with
        | none => rw [hs] at h; simp [consG1] at h
        | some p =>
            obtain ⟨g1', g2'⟩ := p
            rw [hs] at h
            simp only [consG1] at h
            injection h with h
            injection h with h1 h2
            subst h1
            subst h2
            obtain ⟨r2, hr, hmip⟩ := ih g1' g2' hs
            exact ⟨r2, by rw [hr]; rfl, hmip⟩

theorem scanG1_minimal : ∀ l g1 g2, scanG1 l = some (g1, g2) →
    ∀ a b, l = a ++ '\n' :: b → a.length < g1.length → matchInputPart b = none := by
  intro l
  induction l with
  | nil =>
      intro g1 g2 h
      simp [scanG1] at h
  | cons c rest ih =>
      intro g1 g2 h a b hab hlen
      cases a with
      | nil =>
          simp only [List.nil_append] at hab
          injection hab with hc hrest
          subst hc
          rw [hrest] at h
          rw [scanG1] at h
          simp only [if_pos rfl] at h
          cases hm : matchInputPart b with
          | none => rfl
          | some g2' =>
              rw [hm] at h
              injection h with h
              injection h with h1 h2
              rw [← h1] at hlen
              simp at hlen
      | cons a0 a' =>
          simp only [List.cons_append] at hab
          injection hab with hc hrest
          subst hc
          by_cases ha0 : c = '\n'
          · subst ha0
            rw [scanG1] at h
            simp only [if_pos rfl] at h
            cases hm : matchInputPart rest with
            | some g2' =>
                rw [hm] at h
                injection h with h
                injection h with h1 h2
                rw [← h1] at hlen
                simp at hlen
            | none =>
                rw [hm] at h
                cases hs : scanG1 rest with
                | none => rw [hs] at h; simp [consG1] at h
                | some p =>
                    obtain ⟨g1', g2'⟩ := p
                    rw [hs] at h
                    simp only [consG1] at h
                    injection h with h
                    injection h with h1 h2
                    have hlen' : a'.length < g1'.length := by
                      rw [← h1] at hlen
                      simp only [List.length_cons] at hlen
                      omega
                    exact ih g1' g2' hs a' b hrest hlen'
          · rw [scanG1] at h
            simp only [ha0, if_false] at h
            cases hs : scanG1 rest with
            | none => rw [hs] at h; simp [consG1] at h
            | some p =>
                obtain ⟨g1', g2'⟩ := p
                rw [hs] at h
                simp only [consG1] at h
                injection h with h
                injection h with h1 h2
                have hlen' : a'.length < g1'.length := by
                  rw [← h1] at hlen
                  simp only [List.length_cons] at hlen
                  omega
                exact ih g1' g2' hs a' b hrest hlen'

theorem matchInputPart_startsWith (r g2 : List Char)
    (h : matchInputPart r = some g2) : startsWith actionTok r = true := by
  by_cases hs : startsWith actionTok r = true
  · exact hs
  · rw [matchInputPart] at h
    simp only [hs] at h
    simp at h

theorem skipWDW_decomp (x : List Char) : ∃ w, x = w ++ skipWDW x := by
  refine ⟨x.takeWhile isWs ++ ((x.dropWhile isWs).takeWhile isDigitCh
    ++ ((x.dropWhile isWs).dropWhile isDigitCh).takeWhile isWs), ?_⟩
  rw [skipWDW, List.append_assoc, List.append_assoc, List.takeWhile_append_dropWhile,
    List.takeWhile_append_dropWhile, List.takeWhile_append_dropWhile]

theorem matchAt_sound (l : List Char) (g1 g2 : List Char)
    (h : matchAt l = some (g1, g2)) :
    ∃ w rest, l = actionTok ++ w ++ ':' :: rest ∧ scanG1 rest = some (g1, g2) := by
  by_cases hs : startsWith actionTok l = true
  · rcases (startsWith_iff actionTok l).mp hs with ⟨x, hx⟩
    rw [matchAt] at h
    simp only [hs, if_true] at h
    have hdrop : l.drop actionTok.length = x := by
      rw [hx]
      exact List.drop_left actionTok x
    rw [hdrop] at h
    rcases skipWDW_decomp x with ⟨w, hw⟩
    split at h
    · rename_i rest heq
      refine ⟨w, rest, ?_, h⟩
      rw [hx, hw, heq, List.append_assoc]
    · simp at h
  · rw [matchAt] at h
    simp only [hs] at h
    simp at h

theorem reSearch_sound : ∀ l res, reSearch l = some res →
    ∃ a sfx, l = a ++ sfx ∧ matchAt sfx = some res := by
  intro l
  induction l with
  | nil => intro res h; simp [reSearch] at h
  | cons c rest ih =>
      intro res h
      rw [reSearch] at h
      cases hm : matchAt (c :: rest) with
      | some r =>
          rw [hm] at h
          injection h with h
          subst h
          exact ⟨[], c :: rest, rfl, hm⟩
      | none =>
          rw [hm] at h
          obtain ⟨a, sfx, ha, hma⟩ := ih res h
          exact ⟨c :: a, sfx, by rw [ha]; rfl, hma⟩

theorem linePre_append_newline (x : List Char) : linePre (x ++ ['\n']) = [] := by
  rw [linePre, List.reverse_append]
  simp [List.takeWhile]

/-- Claim C9 is false as stated: a successful action parse always places the
`Action` of the `Action Input` segment immediately after a newline, so no
input can both parse to an Action Step and have every `Action` token
preceded by non-whitespace on its own line. -/
theorem midline_claim_false : ¬ midlineClaim := by
  rintro ⟨t, hFA, hMid, act, hparse⟩
  cases hr : reSearch t with
  | none => simp [CustomOutputParser.parse, hFA, hr] at hparse
  | some p =>
      obtain ⟨g1, g2⟩ := p
      obtain ⟨a0, sfx, hsplit, hm⟩ := reSearch_sound t (g1, g2) hr
      obtain ⟨w, rest, hsfx, hscan⟩ := matchAt_sound sfx g1 g2 hm
      obtain ⟨r2, hrest, hinp⟩ := scanG1_sound rest g1 g2 hscan
      obtain ⟨y, hy⟩ :=
        (startsWith_iff actionTok r2).mp (matchInputPart_startsWith r2 g2 hinp)
      have ht : t = ((a0 ++ actionTok ++ w ++ [':'] ++ g1) ++ ['\n']) ++ actionTok ++ y := by
        rw [hsplit, hsfx, hrest, hy]
        simp [List.append_assoc]
      have hmid := hMid ((a0 ++ actionTok ++ w ++ [':'] ++ g1) ++ ['\n']) y ht
      rw [linePre_append_newline] at hmid
      simp at hmid

/-- Claim C9, amended: action extraction is not anchored to the start of a
line for the tool-name segment — an input whose tool-name-anchoring `Action`
token is preceded by non-whitespace on its line still parses to an Action
Step (while the `Action` of the `Action Input` segment necessarily follows a
newline). -/
theorem midline_amended :
    occursIn finalAnswerMarker exMidline = false ∧
    exMidline = exMidlinePre ++ actionTok ++ exMidlineRest ∧
    (linePre exMidlinePre).any (fun c => !(isWs c)) = true ∧
    CustomOutputParser.parse exMidline = .ok (.action actMidline) := by
  refine ⟨by decide, by decide, by decide, by rfl⟩

/-- Claim C5 is false as stated: under DOTALL the lazy tool-name capture can
span several lines, so the tool name is not the text up to the next newline;
here the extracted tool name contains a newline and differs from the
single-line capture. -/
theorem toolName_counterexample :
    CustomOutputParser.parse exMultiline = .ok (.action actMultiline) ∧
    occursIn newlineTok actMultiline.tool = true ∧
    actMultiline.tool ≠ fooTok := by
  refine ⟨by rfl, by decide, by decide⟩

/-- Claim C5, amended: the tool name is the whitespace-trimmed group-1
capture, where group 1 is the shortest text after the colon — newlines
included — that is followed by a newline and a matching
`Action ... Input ... :` segment. -/
theorem toolName_amended (t g1 g2 : List Char)
    (hFA : occursIn finalAnswerMarker t = false)
    (hr : reSearch t = some (g1, g2)) :
    ∃ a w r2,
      t = a ++ actionTok ++ w ++ ':' :: (g1 ++ '\n' :: r2) ∧
      matchInputPart r2 = some g2 ∧
      (∀ g1' r2', g1 ++ '\n' :: r2 = g1' ++ '\n' :: r2' → g1'.length < g1.length →
        matchInputPart r2' = none) ∧
      CustomOutputParser.parse t
        = .ok (.action ⟨pyStripWs g1, pyStrip isQuoteCh (pyStrip isSpaceCh g2), t⟩) := by
  obtain ⟨a0, sfx, hsplit, hm⟩ := reSearch_sound t (g1, g2) hr
  obtain ⟨w, rest, hsfx, hscan⟩ := matchAt_sound sfx g1 g2 hm
  obtain ⟨r2, hrest, hinp⟩ := scanG1_sound rest g1 g2 hscan
  refine ⟨a0, w, r2, ?_, hinp, ?_, ?_⟩
  · rw [hsplit, hsfx, hrest]
    simp [List.append_assoc]
  · intro g1' r2' heq hlt
    exact scanG1_minimal rest g1 g2 hscan g1' r2' (by rw [hrest, heq]) hlt
  · simp [CustomOutputParser.parse, hFA, hr]

/-- Witness for the amended C5 at the two-line tool-name input. -/
theorem toolName_amended_witness :
    ∃ a w r2,
      exMultiline = a ++ actionTok ++ w ++ ':' :: (g1Multiline ++ '\n' :: r2) ∧
      matchInputPart r2 = some bazTok ∧
      (∀ g1' r2', g1Multiline ++ '\n' :: r2 = g1' ++ '\n' :: r2' →
        g1'.length < g1Multiline.length → matchInputPart r2' = none) ∧
      CustomOutputParser.parse exMultiline
        = .ok (.action
            ⟨pyStripWs g1Multiline, pyStrip isQuoteCh (pyStrip isSpaceCh bazTok),
              exMultiline⟩) :=
  toolName_amended exMultiline g1Multiline bazTok (by decide) (by rfl)

/-- Claim C3 is false as stated: on the claim's own example the greedy
capture retains the trailing newline, so the closing quote is not stripped
and the tool input is `hello world"` followed by a newline; moreover
`strip` removes every layer of surrounding quotes, not exactly one. -/
theorem toolInput_counterexample :
    (reSearch exHello = some (spSearchTok, helloRawCapture) ∧
      CustomOutputParser.parse exHello = .ok (.action actHello) ∧
      actHello.tool_input ≠ helloTok) ∧
    (reSearch exDoubleQuotes = some (spSearchTok, dquoteRawCapture) ∧
      CustomOutputParser.parse exDoubleQuotes = .ok (.action actDoubleQuotes) ∧
      claimedToolInputC3 dquoteRawCapture ≠ actDoubleQuotes.tool_input) := by
  exact ⟨⟨by rfl, by rfl, by decide⟩, by rfl, by rfl, by decide⟩

/-- Claim C3, amended: the tool input is the raw group-2 capture trimmed of
leading and trailing spaces and then of all leading and trailing double
quotes; on the quoted example without a trailing newline this yields
`hello world` with the quotes stripped. -/
theorem toolInput_amended (t g1 g2 : List Char)
    (hFA : occursIn finalAnswerMarker t = false)
    (hr : reSearch t = some (g1, g2)) :
    (∃ a, CustomOutputParser.parse t = .ok (.action a) ∧
      a.tool_input = toolInputAmendedSpec g2) ∧
    CustomOutputParser.parse exHelloNoNl = .ok (.action actHelloNoNl) := by
  refine ⟨⟨⟨pyStripWs g1, pyStrip isQuoteCh (pyStrip isSpaceCh g2), t⟩, ?_, rfl⟩, by rfl⟩
  simp [CustomOutputParser.parse, hFA, hr]

/-- Witness for the amended C3 at the quoted example. -/
theorem toolInput_amended_witness :
    (∃ a, CustomOutputParser.parse exHello = .ok (.action a) ∧
      a.tool_input = toolInputAmendedSpec helloRawCapture) ∧
    CustomOutputParser.parse exHelloNoNl = .ok (.action actHelloNoNl) :=
  toolInput_amended exHello spSearchTok helloRawCapture (by decide) (by rfl)

/-!  Numbered action/input suffixes: the digit gaps are skipped uniformly. -/

theorem digit_not_ws (c : Char) (h : isDigitCh c = true) : isWs c = false := by
  cases hw : isWs c with
  | false => rfl
  | true =>
      exfalso
      rw [isWs] at hw
      simp only [Bool.or_eq_true, beq_iff_eq] at hw
      rcases hw with ((((hc | hc) | hc) | hc) | hc) | hc <;>
        (subst hc; exact absurd h (by decide))

theorem digit_ne_F (c : Char) (h : isDigitCh c = true) : ¬ c = 'F' := by
  intro hc
  subst hc
  exact absurd h (by decide)

theorem dropWhile_all_append (p : Char → Bool) (a : List Char)
    (hA : ∀ c ∈ a, p c = true) (b : List Char) :
    (a ++ b).dropWhile p = b.dropWhile p := by
  induction a with
  | nil => rfl
  | cons x a' ih =>
      rw [List.cons_append, List.dropWhile_cons, if_pos (hA x (List.mem_cons_self x a'))]
      exact ih (fun c hc => hA c (List.mem_cons_of_mem x hc))

theorem dropWhile_none_append (p : Char → Bool) (a : List Char) (c0 : Char)
    (r : List Char) (hA : ∀ c ∈ a, p c = false) (hc : p c0 = false) :
    (a ++ c0 :: r).dropWhile p = a ++ c0 :: r := by
  induction a with
  | nil =>
      rw [List.nil_append, List.dropWhile_cons]
      simp [hc]
  | cons x a' ih =>
      rw [List.cons_append, List.dropWhile_cons]
      have hx : p x = false := hA x (List.mem_cons_self x a')
      simp only [hx, Bool.false_eq_true, if_false]

theorem skipWDW_space_digits (d r : List Char)
    (hd : ∀ c ∈ d, isDigitCh c = true) :
    skipWDW (' ' :: (d ++ ':' :: r)) = ':' :: r := by
  have hdw : ∀ c ∈ d, isWs c = false := fun c hc => digit_not_ws c (hd c hc)
  rw [skipWDW, List.dropWhile_cons, if_pos (by decide : isWs ' ' = true),
    dropWhile_none_append isWs d ':' r hdw (by decide),
    dropWhile_all_append isDigitCh d hd (':' :: r), List.dropWhile_cons,
    if_neg (by decide : ¬ (isDigitCh ':' = true)), List.dropWhile_cons,
    if_neg (by decide : ¬ (isWs ':' = true))]

theorem scanG1_step (c : Char) (rest : List Char) (h : ¬ c = '\n') :
    scanG1 (c :: rest) = consG1 c (scanG1 rest) := by
  rw [scanG1]
  simp [h]

theorem scanG1_newline (rest g2 : List Char) (h : matchInputPart rest = some g2) :
    scanG1 ('\n' :: rest) = some ([], g2) := by
  rw [scanG1]
  simp [h]

theorem reSearch_of_matchAt (l : List Char) (res : List Char × List Char)
    (h : matchAt l = some res) : reSearch l = some res := by
  cases l with
  | nil => rw [show matchAt [] = none from rfl] at h; simp at h
  | cons c rest => rw [reSearch, h]

theorem numberedInput_matchInputPart (d2 : List Char)
    (h2 : ∀ c ∈ d2, isDigitCh c = true) :
    matchInputPart ("Action Input ".toList ++ (d2 ++ ": foo".toList)) = some fooTok := by
  have e : matchInputPart ("Action Input ".toList ++ (d2 ++ ": foo".toList))
      = (match skipWDW (' ' :: (d2 ++ ':' :: (' ' :: 'f' :: 'o' :: 'o' :: []))) with
         | ':' :: rest => some (rest.dropWhile isWs)
         | _ => none) := rfl
  rw [e, skipWDW_space_digits d2 (' ' :: 'f' :: 'o' :: 'o' :: []) h2]
  rfl

theorem numberedInput_matchAt (d1 d2 : List Char)
    (h1 : ∀ c ∈ d1, isDigitCh c = true) (h2 : ∀ c ∈ d2, isDigitCh c = true) :
    matchAt (numberedInput d1 d2) = some (spSearchTok, fooTok) := by
  have e : matchAt (numberedInput d1 d2)
      = (match skipWDW (' ' :: (d1 ++ ':' :: (' ' :: 'S' :: 'e' :: 'a' :: 'r' :: 'c' :: 'h'
            :: '\n' :: ("Action Input ".toList ++ (d2 ++ ": foo".toList))))) with
         | ':' :: rest => scanG1 rest
         | _ => none) := rfl
  rw [e, skipWDW_space_digits d1 _ h1]
  show scanG1 (' ' :: 'S' :: 'e' :: 'a' :: 'r' :: 'c' :: 'h'
    :: '\n' :: ("Action Input ".toList ++ (d2 ++ ": foo".toList))) = some (spSearchTok, fooTok)
  rw [scanG1_step ' ' _ (by decide), scanG1_step 'S' _ (by decide),
    scanG1_step 'e' _ (by decide), scanG1_step 'a' _ (by decide),
    scanG1_step 'r' _ (by decide), scanG1_step 'c' _ (by decide),
    scanG1_step 'h' _ (by decide),
    scanG1_newline _ fooTok (numberedInput_matchInputPart d2 h2)]
  rfl

theorem numberedInput_noMarker (d1 d2 : List Char)
    (h1 : ∀ c ∈ d1, isDigitCh c = true) (h2 : ∀ c ∈ d2, isDigitCh c = true) :
    occursIn finalAnswerMarker (numberedInput d1 d2) = false := by
  have hF : ('F' : Char) ∉ numberedInput d1 d2 := by
    intro hmem
    rw [numberedInput] at hmem
    rcases List.mem_append.mp hmem with h | h
    · exact absurd h (by decide)
    rcases List.mem_append.mp h with h | h
    · exact absurd (h1 'F' h) (by decide)
    rcases List.mem_append.mp h with h | h
    · exact absurd h (by decide)
    rcases List.mem_append.mp h with h | h
    · exact absurd (h2 'F' h) (by decide)
    · exact absurd h (by decide)
  cases hx : occursIn finalAnswerMarker (numberedInput d1 d2) with
  | false => rfl
  | true =>
      exfalso
      rcases occursIn_exists_drop _ _ hx with ⟨i, hi⟩
      rcases (startsWith_iff _ _).mp hi with ⟨r, hr⟩
      have hmemF : ('F' : Char) ∈ (numberedInput d1 d2).drop i := by
        rw [hr]
        exact List.mem_append.mpr (Or.inl (by decide))
      exact hF (List.drop_subset i (numberedInput d1 d2) hmemF)

/-- Claim C6: numbered `Action n:` / `Action Input n:` variants parse to the
same tool name and tool input as the unnumbered form, for every pair of
digit suffixes; and when several action/action-input pairs appear, exactly
one Action Step is produced, anchored at the first match in document order. -/
theorem numbered_suffix_spec (d1 d2 : List Char)
    (h1 : ∀ c ∈ d1, isDigitCh c = true) (h2 : ∀ c ∈ d2, isDigitCh c = true) :
    CustomOutputParser.parse (numberedInput d1 d2)
      = .ok (.action ⟨searchTok, fooTok, numberedInput d1 d2⟩) ∧
    CustomOutputParser.parse exUnnumbered
      = .ok (.action ⟨searchTok, fooTok, exUnnumbered⟩) ∧
    CustomOutputParser.parse exDoubled
      = .ok (.action ⟨searchTok, doubledTailTok, exDoubled⟩) := by
  have hFA := numberedInput_noMarker d1 d2 h1 h2
  have hsearch := reSearch_of_matchAt _ _ (numberedInput_matchAt d1 d2 h1 h2)
  refine ⟨?_, by rfl, by rfl⟩
  simp [CustomOutputParser.parse, hFA, hsearch]
  exact ⟨rfl, rfl⟩

/-- Witness for C6 at the claim's numbered example `Action 2:` /
`Action Input 2:`. -/
theorem numbered_suffix_spec_witness :
    CustomOutputParser.parse (numberedInput twoTok twoTok)
      = .ok (.action ⟨searchTok, fooTok, numberedInput twoTok twoTok⟩) ∧
    CustomOutputParser.parse exUnnumbered
      = .ok (.action ⟨searchTok, fooTok, exUnnumbered⟩) ∧
    CustomOutputParser.parse exDoubled
      = .ok (.action ⟨searchTok, doubledTailTok, exDoubled⟩) :=
  numbered_suffix_spec twoTok twoTok (by decide) (by decide)
